import Mathlib

/-!
Verification of the Engram daemon's core subsystems against its
natural-language specification.

The development shallowly embeds the Rust sources:
* `engram-context/src/memory.rs` (MemoryStore: put/patch/delete/get/list,
  the latest-wins comparator, index replay),
* `treerag-ipc/src/protocol.rs` and `src/server.rs` (the public patch type,
  frame-size limiting),
* `engram-core/src/project_manager.rs` (LRU cache, init gating),
* `treerag-indexer/src/storage/mod.rs` (project directory layout),
* `engram-daemon/src/handler.rs` (error-code mapping).

Rust strings are modelled as `List Char`: Rust's `String::cmp` compares
UTF-8 bytes, whose lexicographic order coincides with the lexicographic
order on Unicode scalar values, which is the order Mathlib places on
`List Char`.  Machine integers `i64` are modelled as `Int`, with the one
overflow-relevant operation (`saturating_add`) made explicit.
-/

namespace Engram

/-- A Rust `String`, viewed as its sequence of characters. -/
abbrev RStr := List Char

/-- Convenience conversion from a Lean string literal. -/
def rstr (s : String) : RStr := s.data

/-- Model of `s.trim().is_empty()` in Rust: true iff every character is whitespace. -/
def isBlank (s : RStr) : Bool := s.all Char.isWhitespace

/-! ### Comparator kit

`compareOfLessAndEq` is exactly Rust's `Ord::cmp` for any totally ordered
type: `if a < b { Less } else if a == b { Equal } else { Greater }`. -/

/-- Rust's derived `Ord::cmp` on a linearly ordered type. -/
def cmpOf {α : Type} [LinearOrder α] (a b : α) : Ordering := compareOfLessAndEq a b

/-- Rust's derived `Ord` on `Option<T>`: `None < Some(_)`. -/
def cmpOption {α : Type} (c : α → α → Ordering) : Option α → Option α → Ordering
  | none, none => .eq
  | none, some _ => .lt
  | some _, none => .gt
  | some a, some b => c a b

/-- Lexicographic combination of comparators on a pair, mirroring
`Ordering::then` chaining in Rust. -/
def cmpProd {α β : Type} (c : α → α → Ordering) (d : β → β → Ordering)
    (p q : α × β) : Ordering :=
  (c p.1 q.1).then (d p.2 q.2)

/-- The laws making a comparator a decidable linear order: `eq` characterises
equality, `swap` gives antisymmetry/totality, and `lt` is transitive. -/
structure CmpLaws {α : Type} (c : α → α → Ordering) : Prop where
  eq_iff : ∀ a b, c a b = .eq ↔ a = b
  swap_eq : ∀ a b, (c a b).swap = c b a
  lt_trans : ∀ {a b d}, c a b = .lt → c b d = .lt → c a d = .lt

/-! ### The memory entry record (`engram_ipc::MemoryEntry`) -/

/-- Model of `MemoryEntry` from `treerag-ipc/src/protocol.rs`. -/
structure MemoryEntry where
  id : RStr
  kind : RStr
  content : RStr
  tags : List RStr
  created_at : Int
  updated_at : Int
  session_id : Option RStr
  subagent_id : Option RStr
  deleted : Bool
deriving DecidableEq, Repr

/-- Model of `compare_entries` from `engram-context/src/memory.rs`: strict
lexicographic comparison over `updated_at`, `created_at`, `deleted`
(false < true), `id`, `kind`, `content`, `tags`, `session_id`,
`subagent_id`, chained with `Ordering::then` exactly as in the source. -/
def compare_entries (left right : MemoryEntry) : Ordering :=
  ((((((((cmpOf left.updated_at right.updated_at).then
    (cmpOf left.created_at right.created_at)).then
    (cmpOf left.deleted right.deleted)).then
    (cmpOf left.id right.id)).then
    (cmpOf left.kind right.kind)).then
    (cmpOf left.content right.content)).then
    (cmpOf left.tags right.tags)).then
    (cmpOption cmpOf left.session_id right.session_id)).then
    (cmpOption cmpOf left.subagent_id right.subagent_id)

/-- The tuple of fields in comparison order. -/
def entryKey (e : MemoryEntry) :
    Int × Int × Bool × RStr × RStr × RStr × List RStr × Option RStr × Option RStr :=
  (e.updated_at, e.created_at, e.deleted, e.id, e.kind, e.content,
    e.tags, e.session_id, e.subagent_id)

/-- The comparator `compare_entries` expressed as a lexicographic product comparator. -/
def cmpKey :
    (Int × Int × Bool × RStr × RStr × RStr × List RStr × Option RStr × Option RStr) →
    (Int × Int × Bool × RStr × RStr × RStr × List RStr × Option RStr × Option RStr) →
    Ordering :=
  cmpProd cmpOf (cmpProd cmpOf (cmpProd cmpOf (cmpProd cmpOf (cmpProd cmpOf
    (cmpProd cmpOf (cmpProd cmpOf (cmpProd (cmpOption cmpOf) (cmpOption cmpOf))))))))

/-! ### JSON model and patch normalisation

`MemoryStore::patch` takes the public IPC `MemoryPatch` and normalises it
through `serde_json::to_value` followed by raw-key inspection
(`normalize_patch` in `engram-context/src/memory.rs`).  The JSON value
universe below is just large enough for the fields of `MemoryPatch`. -/

/-- A JSON value, as produced by serialising a `MemoryPatch`. -/
inductive Json where
  | null
  | str (s : RStr)
  | bool (b : Bool)
  | num (n : Int)
  | arr (items : List Json)

/-- Model of `MemoryPatch` from `treerag-ipc/src/protocol.rs`: every field is an
`Option`, and every field carries `skip_serializing_if = "Option::is_none"`. -/
structure MemoryPatch where
  kind : Option RStr := none
  content : Option RStr := none
  tags : Option (List RStr) := none
  session_id : Option RStr := none
  subagent_id : Option RStr := none
  deleted : Option Bool := none
  updated_at : Option Int := none
deriving DecidableEq, Repr

/-- One optional field of a serde-serialised object: the key is skipped
when the value is `None` (`skip_serializing_if = "Option::is_none"`). -/
def optField (key : RStr) : Option Json → List (RStr × Json)
  | some v => [(key, v)]
  | none => []

/-- Model of `serde_json::to_value` applied to a `MemoryPatch`. -/
def MemoryPatch.toJsonObject (p : MemoryPatch) : List (RStr × Json) :=
  optField (rstr "kind") (p.kind.map Json.str) ++
  optField (rstr "content") (p.content.map Json.str) ++
  optField (rstr "tags") (p.tags.map (fun ts => Json.arr (ts.map Json.str))) ++
  optField (rstr "session_id") (p.session_id.map Json.str) ++
  optField (rstr "subagent_id") (p.subagent_id.map Json.str) ++
  optField (rstr "deleted") (p.deleted.map Json.bool) ++
  optField (rstr "updated_at") (p.updated_at.map Json.num)

/-- Model of `object.get(key)` on a serde_json object. -/
def objGet (o : List (RStr × Json)) (key : RStr) : Option Json :=
  (o.find? (fun kv => kv.1 == key)).map (fun kv => kv.2)

/-- Errors of `MemoryStore` (`MemoryStoreError` in the source), at the
granularity the claims need. -/
inductive MemErr where
  | storage
  | invalidEntry
  | invalidPatch
  | serialization
deriving DecidableEq, Repr

/-- Three-valued patch state for a nullable string field
(`NullableStringPatch` in the source). -/
inductive NullableStringPatch where
  | Missing
  | Null
  | Value (v : RStr)
deriving DecidableEq, Repr

/-- Model of `MemoryPatchData` in the source: the normalised patch. -/
structure MemoryPatchData where
  kind : Option RStr
  content : Option RStr
  tags : Option (List RStr)
  session_id : NullableStringPatch
  subagent_id : NullableStringPatch
  deleted : Option Bool
  updated_at : Option Int
deriving DecidableEq, Repr

/-- Model of `MemoryPatchData::is_empty`. -/
def MemoryPatchData.isEmpty (p : MemoryPatchData) : Bool :=
  p.kind.isNone && p.content.isNone && p.tags.isNone &&
  decide (p.session_id = .Missing) && decide (p.subagent_id = .Missing) &&
  p.deleted.isNone && p.updated_at.isNone

/-- Model of `serde_json::from_value::<String>`. -/
def Json.asString : Json → Except MemErr RStr
  | .str s => .ok s
  | _ => .error .serialization

/-- Elementwise decoding of a JSON array's items as strings. -/
def decodeStringItems : List Json → Except MemErr (List RStr)
  | [] => .ok []
  | j :: rest =>
    match j.asString, decodeStringItems rest with
    | .ok s, .ok tail => .ok (s :: tail)
    | .error e, _ => .error e
    | .ok _, .error e => .error e

/-- Model of `serde_json::from_value::<Vec<String>>`. -/
def Json.asStringList : Json → Except MemErr (List RStr)
  | .arr items => decodeStringItems items
  | _ => .error .serialization

/-- Model of `serde_json::from_value::<bool>`. -/
def Json.asBool : Json → Except MemErr Bool
  | .bool b => .ok b
  | _ => .error .serialization

/-- Model of `serde_json::from_value::<i64>`. -/
def Json.asInt : Json → Except MemErr Int
  | .num n => .ok n
  | _ => .error .serialization

/-- Reading one plain optional field inside `normalize_patch`:
absent key leaves the field `None`, a present value must decode. -/
def readField {β : Type} (dec : Json → Except MemErr β) (o : List (RStr × Json))
    (key : RStr) : Except MemErr (Option β) :=
  match objGet o key with
  | none => .ok none
  | some raw => (dec raw).map some

/-- Reading a nullable string field inside `normalize_patch`: absent key is
`Missing`, an explicit JSON `null` is `Null`, anything else must decode to a
string. -/
def readNullableField (o : List (RStr × Json)) (key : RStr) :
    Except MemErr NullableStringPatch :=
  match objGet o key with
  | none => .ok .Missing
  | some .null => .ok .Null
  | some raw => (raw.asString).map .Value

/-- The body of `normalize_patch` after `serde_json::to_value`: inspect the
raw object keys, then reject empty patches and blank `kind`/`content`. -/
def normalizeObject (o : List (RStr × Json)) : Except MemErr MemoryPatchData := do
  let kind ← readField Json.asString o (rstr "kind")
  let content ← readField Json.asString o (rstr "content")
  let tags ← readField Json.asStringList o (rstr "tags")
  let session_id ← readNullableField o (rstr "session_id")
  let subagent_id ← readNullableField o (rstr "subagent_id")
  let deleted ← readField Json.asBool o (rstr "deleted")
  let updated_at ← readField Json.asInt o (rstr "updated_at")
  let patch : MemoryPatchData :=
    { kind, content, tags, session_id, subagent_id, deleted, updated_at }
  if patch.isEmpty then
    Except.error .invalidPatch
  else if (match patch.kind with | some k => isBlank k | none => false) then
    Except.error .invalidPatch
  else if (match patch.content with | some c => isBlank c | none => false) then
    Except.error .invalidPatch
  else
    Except.ok patch

/-- Model of `normalize_patch` from the source, specialised to the public IPC patch
type (whose serialisation always yields an object, so the `as_object` error
branch of the source cannot fire). -/
def normalize_patch (p : MemoryPatch) : Except MemErr MemoryPatchData :=
  normalizeObject p.toJsonObject

/-! ### The in-memory index and the store operations

The per-project index is `HashMap<String, MemoryEntry>`; we model it as an
association list keyed by `id`.  `indexInsert` has `HashMap::insert`
semantics (replace the binding when the key is present, add it otherwise). -/

/-- Model of `index.entries.get(id)`. -/
def indexFind (m : List (RStr × MemoryEntry)) (id : RStr) : Option MemoryEntry :=
  (m.find? (fun kv => kv.1 == id)).map (fun kv => kv.2)

/-- Model of `HashMap::insert(candidate.id, candidate)`. -/
def indexInsert (m : List (RStr × MemoryEntry)) (e : MemoryEntry) :
    List (RStr × MemoryEntry) :=
  if m.any (fun kv => kv.1 == e.id) then
    m.map (fun kv => if kv.1 == e.id then (e.id, e) else kv)
  else
    m ++ [(e.id, e)]

/-- Model of `apply_latest` from the source: insert the candidate unless an existing
entry for the same id compares greater-or-equal. -/
def apply_latest (m : List (RStr × MemoryEntry)) (candidate : MemoryEntry) :
    List (RStr × MemoryEntry) :=
  match indexFind m candidate.id with
  | some current =>
      if (compare_entries current candidate).isGE then m
      else indexInsert m candidate
  | none => indexInsert m candidate

/-- Model of `validate_entry` from the source. -/
def validate_entry (e : MemoryEntry) : Bool :=
  !(isBlank e.id) && !(isBlank e.kind) && !(isBlank e.content) &&
  decide (0 < e.created_at) && decide (0 < e.updated_at)

/-- Largest `i64`. -/
def i64Max : Int := 9223372036854775807

/-- Rust `i64::saturating_add(1)` (the argument never underflows here). -/
def i64SatAdd1 (x : Int) : Int := min (x + 1) i64Max

/-- A default entry, making `MemoryEntry` inhabited for list lemmas. -/
instance : Inhabited MemoryEntry :=
  ⟨⟨[], [], [], [], 0, 0, none, none, false⟩⟩

/-- The durable state of one project: the append-only log (the
`experience.jsonl` lines holding memory entries, in append order) and the
in-memory latest-by-id index. -/
structure StoreState where
  log : List MemoryEntry
  index : List (RStr × MemoryEntry)
deriving DecidableEq, Repr

/-- The empty project state: empty log, freshly synced empty index. -/
def initState : StoreState := ⟨[], []⟩

/-- Durably append one serialized version and apply it to the index —
the common tail of `put`/`patch`/`delete`. -/
def commit (s : StoreState) (e : MemoryEntry) : StoreState :=
  { log := s.log ++ [e], index := apply_latest s.index e }

/-- The entry `MemoryStore::put` completes before validating: a generated
UUID for a blank id, wall-clock fills for non-positive timestamps. -/
def putCandidate (entry : MemoryEntry) (genId : RStr) (now : Int) : MemoryEntry :=
  let e1 := if isBlank entry.id then { entry with id := genId } else entry
  let e2 := if e1.created_at ≤ 0 then { e1 with created_at := now } else e1
  if e2.updated_at ≤ 0 then { e2 with updated_at := now } else e2

/-- Model of `MemoryStore::put`.  `genId` stands for the UUID the server would
generate for a blank id, and `now` for `current_timestamp()`. -/
def putOp (s : StoreState) (entry : MemoryEntry) (genId : RStr) (now : Int) :
    StoreState × Except MemErr (Option MemoryEntry) :=
  let e3 := putCandidate entry genId now
  if validate_entry e3 then
    let s' := commit s e3
    (s', .ok (indexFind s'.index e3.id))
  else
    (s, .error .invalidEntry)

/-- The updated entry built by `MemoryStore::patch` before validation:
present fields overwrite, nullable strings are three-valued, then
`updated_at = max(patch.updated_at ?? now, current.updated_at + 1)` and the
id is forced back to the lookup key. -/
def patchCandidate (current : MemoryEntry) (p : MemoryPatchData) (id : RStr)
    (now : Int) : MemoryEntry :=
  let u := current
  let u := match p.kind with | some k => { u with kind := k } | none => u
  let u := match p.content with | some c => { u with content := c } | none => u
  let u := match p.tags with | some t => { u with tags := t } | none => u
  let u := match p.session_id with
    | .Missing => u
    | .Null => { u with session_id := none }
    | .Value v => { u with session_id := some v }
  let u := match p.subagent_id with
    | .Missing => u
    | .Null => { u with subagent_id := none }
    | .Value v => { u with subagent_id := some v }
  let u := match p.deleted with | some d => { u with deleted := d } | none => u
  { u with
    updated_at := max (p.updated_at.getD now) (i64SatAdd1 current.updated_at),
    id := id }

/-- Model of `MemoryStore::patch`. -/
def patchOp (s : StoreState) (id : RStr) (patch : MemoryPatch) (now : Int) :
    StoreState × Except MemErr (Option MemoryEntry) :=
  if isBlank id then
    (s, .error .invalidEntry)
  else
    match normalize_patch patch with
    | .error e => (s, .error e)
    | .ok p =>
      match indexFind s.index id with
      | none => (s, .ok none)
      | some current =>
        let updated := patchCandidate current p id now
        if validate_entry updated then
          let s' := commit s updated
          (s', .ok (indexFind s'.index id))
        else
          (s, .error .invalidEntry)

/-- The tombstone built by `MemoryStore::delete`. -/
def deleteCandidate (current : MemoryEntry) (deletedAt : Option Int)
    (now : Int) : MemoryEntry :=
  { current with
    deleted := true,
    updated_at := max (deletedAt.getD now) (i64SatAdd1 current.updated_at) }

/-- Model of `MemoryStore::delete`. -/
def deleteOp (s : StoreState) (id : RStr) (deletedAt : Option Int) (now : Int) :
    StoreState × Except MemErr (Option MemoryEntry) :=
  if isBlank id then
    (s, .error .invalidEntry)
  else
    match indexFind s.index id with
    | none => (s, .ok none)
    | some current =>
      let tombstone := deleteCandidate current deletedAt now
      let s' := commit s tombstone
      (s', .ok (indexFind s'.index id))

/-- Model of `MemoryStore::get_latest`: latest version including tombstones. -/
def getLatestOp (s : StoreState) (id : RStr) : Option MemoryEntry :=
  indexFind s.index id

/-- Model of `MemoryStore::get`: latest version, filtering tombstones. -/
def getOp (s : StoreState) (id : RStr) : Option MemoryEntry :=
  (indexFind s.index id).filter (fun e => !e.deleted)

/-- Model of `MemoryStore::rebuild_from_storage` / replay: fold `apply_latest` over
all log lines, oldest first, starting from an empty map. -/
def rebuild_from_storage (log : List MemoryEntry) : List (RStr × MemoryEntry) :=
  log.foldl apply_latest []

/-! ### Write sequences (claim C1) -/

/-- One write operation issued through the store, together with the
environment inputs the server would draw (generated UUID, wall clock). -/
inductive WriteOp where
  | putW (entry : MemoryEntry) (genId : RStr) (now : Int)
  | patchW (id : RStr) (patch : MemoryPatch) (now : Int)
  | deleteW (id : RStr) (deletedAt : Option Int) (now : Int)

/-- Execute one write against the state. -/
def stepOp (s : StoreState) : WriteOp → StoreState
  | .putW e g n => (putOp s e g n).1
  | .patchW id p n => (patchOp s id p n).1
  | .deleteW id d n => (deleteOp s id d n).1

/-- Execute a write sequence against an initially empty log. -/
def runOps (ops : List WriteOp) : StoreState := ops.foldl stepOp initState


/-- The normalised shape of a nullable-string field coming from the public
IPC patch type: `Null` can never arise (the claim C10 proves this). -/
def toNullable : Option RStr → NullableStringPatch
  | none => .Missing
  | some v => .Value v

/-! ### Listing (`MemoryStore::list`) -/

/-- Insertion into a list that is sorted ascending by `compare_entries`. -/
def insertSorted (e : MemoryEntry) : List MemoryEntry → List MemoryEntry
  | [] => [e]
  | x :: xs => if (compare_entries e x).isLE then e :: x :: xs else x :: insertSorted e xs

/-- Model of `entries.sort_by(compare_entries)` (any correct sort is deterministic
here because the comparator is a total order). -/
def sortEntries : List MemoryEntry → List MemoryEntry
  | [] => []
  | x :: xs => insertSorted x (sortEntries xs)

/-- Model of `MemoryStore::list`: live entries only, sorted ascending by the
comparator, then `drain(..len - limit)` keeps the last `limit`. -/
def listOp (s : StoreState) (limit : Nat) : List MemoryEntry :=
  if limit = 0 then []
  else
    let entries := (s.index.map (fun kv => kv.2)).filter (fun e => !e.deleted)
    let sorted := sortEntries entries
    if sorted.length > limit then sorted.drop (sorted.length - limit) else sorted

/-! ### Project directory resolution (claim C3)

`Storage` (`treerag-indexer/src/storage/mod.rs`) and `ProjectManager`
(`engram-core/src/project_manager.rs`) each resolve an on-disk directory
for a project.  Paths are modelled as segment lists; the hash value each
component computes is passed in as a parameter (`Storage::project_hash` is
the 16-hex prefix of SHA-256 over the path string;
`ProjectManager::compute_hash` is the 16-hex rendering of Rust's 64-bit
`DefaultHasher` over the canonical path — two different functions). -/

/-- Model of `Storage::project_dir(hash) = base_dir.join(hash)`.  The daemon
(`treerag-daemon/src/daemon.rs`) constructs `Storage::new(config.data_dir)`,
so `baseDir` is the configured data directory. -/
def storageProjectDir (baseDir : List RStr) (hash : RStr) : List RStr :=
  baseDir ++ [hash]

/-- Model of `Storage::experience_log`: the memory/experience log lives at
`<project_dir>/experience.jsonl`. -/
def storageExperienceLogPath (baseDir : List RStr) (hash : RStr) : List RStr :=
  storageProjectDir baseDir hash ++ [rstr "experience.jsonl"]

/-- Model of `ProjectManager::project_storage_dir(hash) =
data_dir.join("projects").join(hash)`; the manifest lives at
`<dir>/manifest.json`. -/
def managerProjectStorageDir (dataDir : List RStr) (hash : RStr) : List RStr :=
  dataDir ++ [rstr "projects", hash]

/-! ### Init handler error mapping (claim C7) -/

/-- Model of `ErrorCode` from `treerag-ipc/src/protocol.rs`. -/
inductive ErrorCode where
  | notInitialized
  | invalidRequest
  | internalError
  | timeout
  | shuttingDown
deriving DecidableEq, Repr

/-- The `CoreError` variants `ProjectManager::init_project` can produce. -/
inductive CoreError where
  | invalidPath
  | alreadyInitialized
  | ioError
deriving DecidableEq, Repr

/-- Model of `ProjectManager::init_project`, over the facts it samples: whether
`cwd.canonicalize()` succeeds, whether `manifest.json` already exists under
the hashed storage directory, and whether `Project::create` succeeds. -/
def init_project (canonicalOk manifestExists createOk : Bool) :
    Except CoreError Unit :=
  if !canonicalOk then .error .invalidPath
  else if manifestExists then .error .alreadyInitialized
  else if createOk then .ok () else .error .ioError

/-- The handler's response to `InitProject`, at the granularity C7 needs. -/
inductive InitResponse where
  | ok
  | err (code : ErrorCode)
deriving DecidableEq, Repr

/-- Model of `DaemonHandler::handle(InitProject)` from
`engram-daemon/src/handler.rs`: `Response::ok()` on success and
`Response::error(ErrorCode::InternalError, ..)` on every error. -/
def handleInitProject (canonicalOk manifestExists createOk : Bool) : InitResponse :=
  match init_project canonicalOk manifestExists createOk with
  | .ok _ => .ok
  | .error _ => .err .internalError

/-! ### ProjectManager LRU cache (claim C8)

The cache is `LruCache<PathBuf, Arc<Project>>`, modelled as the list of
cached keys in recency order (most recent first).  Handles are irrelevant
to the bound, so only keys are tracked. -/

/-- Model of `NonZeroUsize::new(max_projects).unwrap_or(NonZeroUsize::MIN)` from
`ProjectManager::new`: a zero configuration silently becomes capacity 1. -/
def lruCapacity (maxProjects : Nat) : Nat :=
  if maxProjects = 0 then 1 else maxProjects

/-- Model of `LruCache::get` on a hit (promote to most-recently-used). -/
def lruPromote (cache : List RStr) (k : RStr) : List RStr :=
  k :: cache.filter (fun x => !(x == k))

/-- Model of `LruCache::put`: replace-and-promote on a present key; otherwise evict
the least-recently-used entry when full, then insert at the front. -/
def lruPut (cap : Nat) (cache : List RStr) (k : RStr) : List RStr :=
  if cache.any (fun x => x == k) then
    lruPromote cache k
  else
    k :: (if cache.length ≥ cap then cache.dropLast else cache)

/-- One `ProjectManager` cache-relevant operation, with the environment
facts it samples (canonicalisation result, disk load/create success). -/
inductive PmOp where
  | getProject (canonical : Option RStr) (loadOk : Bool)
  | initProject (canonical : Option RStr) (manifestExists : Bool) (createOk : Bool)
  | evictLru
  | evictAllExcept (canonical : Option RStr)

/-- Effect of one operation on the cached key list
(`engram-core/src/project_manager.rs`). -/
def pmStep (cap : Nat) (cache : List RStr) : PmOp → List RStr
  | .getProject none _ => cache
  | .getProject (some k) loadOk =>
    if cache.any (fun x => x == k) then lruPromote cache k
    else if loadOk then lruPut cap cache k else cache
  | .initProject none _ _ => cache
  | .initProject (some k) manifestExists createOk =>
    if manifestExists then cache
    else if createOk then lruPut cap cache k else cache
  | .evictLru => cache.dropLast
  | .evictAllExcept keep => cache.filter (fun x => keep == some x)

/-- Run a sequence of manager operations from an empty cache under the
configured `max_projects`. -/
def pmRun (maxProjects : Nat) (ops : List PmOp) : List RStr :=
  ops.foldl (pmStep (lruCapacity maxProjects)) []

/-- Model of `ProjectManager::loaded_count`. -/
def loaded_count (cache : List RStr) : Nat := cache.length

/-! ### IPC frame-size limiting (claim C9) -/

/-- Model of `MAX_REQUEST_SIZE` from `treerag-ipc/src/server.rs` (1 MiB). -/
def MAX_REQUEST_SIZE : Nat := 1024 * 1024

/-- A little-endian `u32` from four bytes. -/
def leU32 (b0 b1 b2 b3 : Nat) : Nat := b0 + 256 * (b1 + 256 * (b2 + 256 * b3))

/-- The `IpcError` variants `read_request` can raise before dispatch. -/
inductive IpcErr where
  | requestTooLarge
  | ioEof
deriving DecidableEq, Repr

/-- Model of `IpcServer::read_request` up to payload decoding: read the 4-byte
little-endian length prefix, reject the frame with `RequestTooLarge`
before reading any payload byte when the length exceeds the limit, and
otherwise read exactly `len` payload bytes. -/
def read_request_frame (input : List Nat) : Except IpcErr (List Nat) :=
  match input with
  | b0 :: b1 :: b2 :: b3 :: rest =>
    let len := leU32 b0 b1 b2 b3
    if len > MAX_REQUEST_SIZE then .error .requestTooLarge
    else if rest.length < len then .error .ioEof
    else .ok (rest.take len)
  | _ => .error .ioEof


/-! ### Concrete fixtures used by witnesses -/

/-- A valid live entry with id `"a"` and `updated_at = 10`. -/
def wEntry : MemoryEntry := ⟨rstr "a", rstr "k", rstr "c", [], 1, 10, none, none, false⟩

/-- A store whose log and index hold exactly `wEntry`. -/
def wState : StoreState := ⟨[wEntry], [(rstr "a", wEntry)]⟩

/-- A patch setting `content` and a stale `updated_at`. -/
def wPatch : MemoryPatch := { content := some (rstr "c2"), updated_at := some 5 }

/-- The normalisation of `wPatch`. -/
def wPatchData : MemoryPatchData :=
  ⟨none, some (rstr "c2"), none, .Missing, .Missing, none, some 5⟩

/-! ## Theorems -/

theorem cmpOf_eq_lt {α : Type} [LinearOrder α] {a b : α} :
    cmpOf a b = .lt ↔ a < b := by
  unfold cmpOf compareOfLessAndEq
  rcases lt_trichotomy a b with h | h | h
  · simp [h]
  · simp [h, lt_irrefl]
  · simp [not_lt_of_gt h, ne_of_gt h, h]

theorem cmpOf_eq_eq {α : Type} [LinearOrder α] {a b : α} :
    cmpOf a b = .eq ↔ a = b := by
  unfold cmpOf compareOfLessAndEq
  rcases lt_trichotomy a b with h | h | h
  · simp [h, ne_of_lt h]
  · simp [h, lt_irrefl]
  · simp [not_lt_of_gt h, ne_of_gt h]

theorem cmpOf_eq_gt {α : Type} [LinearOrder α] {a b : α} :
    cmpOf a b = .gt ↔ b < a := by
  unfold cmpOf compareOfLessAndEq
  rcases lt_trichotomy a b with h | h | h
  · simp [h, not_lt_of_gt h]
  · simp [h, lt_irrefl]
  · simp [not_lt_of_gt h, ne_of_gt h, h]

theorem cmpLaws_of {α : Type} [LinearOrder α] : CmpLaws (cmpOf (α := α)) where
  eq_iff _ _ := cmpOf_eq_eq
  swap_eq a b := by
    rcases lt_trichotomy a b with h | h | h
    · rw [cmpOf_eq_lt.mpr h, cmpOf_eq_gt.mpr h]; rfl
    · rw [cmpOf_eq_eq.mpr h, cmpOf_eq_eq.mpr h.symm]; rfl
    · rw [cmpOf_eq_gt.mpr h, cmpOf_eq_lt.mpr h]; rfl
  lt_trans h1 h2 :=
    cmpOf_eq_lt.mpr (lt_trans (cmpOf_eq_lt.mp h1) (cmpOf_eq_lt.mp h2))

theorem cmpLaws_option {α : Type} {c : α → α → Ordering} (hc : CmpLaws c) :
    CmpLaws (cmpOption c) where
  eq_iff a b := by
    cases a <;> cases b <;> simp [cmpOption, hc.eq_iff]
  swap_eq a b := by
    cases a <;> cases b <;> simp [cmpOption, hc.swap_eq]<;> rfl
  lt_trans {a b d} h1 h2 := by
    cases a <;> cases b <;> cases d <;> simp_all [cmpOption]
    exact hc.lt_trans h1 h2

theorem then_eq_eq_iff {o₁ o₂ : Ordering} : o₁.then o₂ = .eq ↔ o₁ = .eq ∧ o₂ = .eq := by
  cases o₁ <;> cases o₂ <;> simp [Ordering.then]

theorem then_eq_lt_iff {o₁ o₂ : Ordering} :
    o₁.then o₂ = .lt ↔ o₁ = .lt ∨ (o₁ = .eq ∧ o₂ = .lt) := by
  cases o₁ <;> cases o₂ <;> simp [Ordering.then]

theorem then_swap (o₁ o₂ : Ordering) : (o₁.then o₂).swap = o₁.swap.then o₂.swap := by
  cases o₁ <;> rfl

theorem then_assoc (o₁ o₂ o₃ : Ordering) :
    (o₁.then o₂).then o₃ = o₁.then (o₂.then o₃) := by
  cases o₁ <;> cases o₂ <;> rfl

theorem cmpLaws_prod {α β : Type} {c : α → α → Ordering} {d : β → β → Ordering}
    (hc : CmpLaws c) (hd : CmpLaws d) : CmpLaws (cmpProd c d) where
  eq_iff p q := by
    simp [cmpProd, then_eq_eq_iff, hc.eq_iff, hd.eq_iff, Prod.ext_iff]
  swap_eq p q := by
    simp [cmpProd, then_swap, hc.swap_eq, hd.swap_eq]
  lt_trans {p q r} h1 h2 := by
    rw [cmpProd, then_eq_lt_iff] at h1 h2 ⊢
    rcases h1 with h1 | ⟨h1e, h1d⟩
    · rcases h2 with h2 | ⟨h2e, h2d⟩
      · exact Or.inl (hc.lt_trans h1 h2)
      · rw [hc.eq_iff] at h2e
        exact Or.inl (h2e ▸ h1)
    · rw [hc.eq_iff] at h1e
      rcases h2 with h2 | ⟨h2e, h2d⟩
      · exact Or.inl (h1e ▸ h2)
      · rw [hc.eq_iff] at h2e
        exact Or.inr ⟨by rw [hc.eq_iff, h1e, h2e], hd.lt_trans h1d h2d⟩


theorem compare_entries_eq_key (l r : MemoryEntry) :
    compare_entries l r = cmpKey (entryKey l) (entryKey r) := by
  simp only [compare_entries, cmpKey, cmpProd, entryKey, then_assoc]

theorem cmpLaws_key : CmpLaws cmpKey := by
  have hopt : CmpLaws (cmpOption (cmpOf (α := RStr))) := cmpLaws_option cmpLaws_of
  exact cmpLaws_prod cmpLaws_of (cmpLaws_prod cmpLaws_of (cmpLaws_prod cmpLaws_of
    (cmpLaws_prod cmpLaws_of (cmpLaws_prod cmpLaws_of (cmpLaws_prod cmpLaws_of
      (cmpLaws_prod cmpLaws_of (cmpLaws_prod hopt hopt)))))))

theorem entryKey_inj {a b : MemoryEntry} (h : entryKey a = entryKey b) : a = b := by
  cases a
  cases b
  simp only [entryKey, Prod.mk.injEq] at h
  obtain ⟨h1, h2, h3, h4, h5, h6, h7, h8, h9⟩ := h
  subst h1 h2 h3 h4 h5 h6 h7 h8 h9
  rfl

theorem cmpLaws_entries : CmpLaws compare_entries where
  eq_iff a b := by
    rw [compare_entries_eq_key, cmpLaws_key.eq_iff]
    constructor
    · exact entryKey_inj
    · rintro rfl; rfl
  swap_eq a b := by
    rw [compare_entries_eq_key, compare_entries_eq_key, cmpLaws_key.swap_eq]
  lt_trans {a b d} h1 h2 := by
    rw [compare_entries_eq_key] at h1 h2 ⊢
    exact cmpLaws_key.lt_trans h1 h2


theorem commit_preserves_replay {s : StoreState}
    (h : s.index = rebuild_from_storage s.log) (e : MemoryEntry) :
    (commit s e).index = rebuild_from_storage (commit s e).log := by
  simp [commit, rebuild_from_storage, List.foldl_append]
  rw [← rebuild_from_storage, ← h]

theorem stepOp_preserves_replay {s : StoreState}
    (h : s.index = rebuild_from_storage s.log) (op : WriteOp) :
    (stepOp s op).index = rebuild_from_storage (stepOp s op).log := by
  cases op with
  | putW e g n =>
    simp only [stepOp, putOp]
    split
    · exact commit_preserves_replay h _
    · exact h
  | patchW id p n =>
    simp only [stepOp, patchOp]
    split
    · exact h
    · split
      · exact h
      · split
        · exact h
        · split
          · exact commit_preserves_replay h _
          · exact h
  | deleteW id d n =>
    simp only [stepOp, deleteOp]
    split
    · exact h
    · split
      · exact h
      · exact commit_preserves_replay h _

theorem foldl_preserves_replay (ops : List WriteOp) :
    ∀ s : StoreState, s.index = rebuild_from_storage s.log →
      (ops.foldl stepOp s).index = rebuild_from_storage (ops.foldl stepOp s).log := by
  induction ops with
  | nil => intro s h; exact h
  | cons op rest ih =>
    intro s h
    exact ih (stepOp s op) (stepOp_preserves_replay h op)

/-- C1.  Replay equivalence: after any sequence of writes starting from an
empty log, the index held by the store equals the index a fresh store
rebuilds by replaying the same log. -/
theorem replay_equivalence (ops : List WriteOp) :
    (runOps ops).index = rebuild_from_storage (runOps ops).log :=
  foldl_preserves_replay ops initState rfl


/-- C5.  Comparator totality: `compare_entries` characterises equality
(`eq` iff the entries are identical, so two distinct entries never compare
equal), is antisymmetric/total (swapping the arguments swaps the result),
and is transitive. -/
theorem comparator_total_order :
    (∀ a b : MemoryEntry, compare_entries a b = .eq ↔ a = b) ∧
    (∀ a b : MemoryEntry, (compare_entries a b).swap = compare_entries b a) ∧
    (∀ a b c : MemoryEntry,
      compare_entries a b = .lt → compare_entries b c = .lt →
      compare_entries a c = .lt) ∧
    (∀ a b : MemoryEntry, a ≠ b → compare_entries a b ≠ .eq) :=
  ⟨cmpLaws_entries.eq_iff, cmpLaws_entries.swap_eq,
    fun _ _ _ => cmpLaws_entries.lt_trans,
    fun a b hne he => hne ((cmpLaws_entries.eq_iff a b).mp he)⟩

/-- C5 witness: transitivity and distinctness applied at concrete entries. -/
theorem comparator_total_order_witness :
    compare_entries
      ⟨rstr "a", rstr "note", rstr "alpha", [rstr "t"], 1, 10, none, none, false⟩
      ⟨rstr "c", rstr "note", rstr "gamma", [], 2, 30, some (rstr "s"), none, true⟩ = .lt ∧
    compare_entries
      ⟨rstr "a", rstr "note", rstr "alpha", [rstr "t"], 1, 10, none, none, false⟩
      ⟨rstr "c", rstr "note", rstr "gamma", [], 2, 30, some (rstr "s"), none, true⟩ ≠ .eq :=
  ⟨comparator_total_order.2.2.1 _
      ⟨rstr "b", rstr "note", rstr "beta", [], 1, 20, none, none, false⟩ _
      (by decide) (by decide),
    comparator_total_order.2.2.2 _ _ (by decide)⟩

/-! ### Index lemmas -/

theorem find_map_insert {m : List (RStr × MemoryEntry)} {e : MemoryEntry}
    (h : m.any (fun kv => kv.1 == e.id) = true) :
    (m.map (fun kv => if kv.1 == e.id then (e.id, e) else kv)).find?
      (fun kv => kv.1 == e.id) = some (e.id, e) := by
  induction m with
  | nil => simp at h
  | cons hd tl ih =>
    rw [List.map_cons]
    by_cases hk : (hd.1 == e.id) = true
    · rw [if_pos hk, List.find?_cons_of_pos _ (by simp)]
    · have hk' : (hd.1 == e.id) = false := by simpa using hk
      rw [if_neg (by simp [hk']), List.find?_cons_of_neg _ (by simp [hk'])]
      exact ih (by simpa [hk'] using h)

theorem find_append_single {m : List (RStr × MemoryEntry)} {e : MemoryEntry}
    (h : m.any (fun kv => kv.1 == e.id) = false) :
    (m ++ [(e.id, e)]).find? (fun kv => kv.1 == e.id) = some (e.id, e) := by
  induction m with
  | nil =>
    rw [List.nil_append, List.find?_cons_of_pos _ (by simp)]
  | cons hd tl ih =>
    have hk : (hd.1 == e.id) = false := by
      by_contra hcon
      simp only [Bool.not_eq_false] at hcon
      simp [hcon] at h
    rw [List.cons_append, List.find?_cons_of_neg _ (by simp [hk])]
    exact ih (by simpa [hk] using h)

theorem indexFind_insert_self (m : List (RStr × MemoryEntry)) (e : MemoryEntry) :
    indexFind (indexInsert m e) e.id = some e := by
  unfold indexInsert indexFind
  by_cases h : m.any (fun kv => kv.1 == e.id) = true
  · rw [if_pos h, find_map_insert h]
    rfl
  · have h' : m.any (fun kv => kv.1 == e.id) = false := by
      cases hb : m.any (fun kv => kv.1 == e.id) with
      | false => rfl
      | true => exact absurd hb h
    rw [if_neg (by rw [h']; exact Bool.false_ne_true), find_append_single h']
    rfl

theorem apply_latest_wins {m : List (RStr × MemoryEntry)} {cur c : MemoryEntry}
    (hfind : indexFind m c.id = some cur)
    (hlt : compare_entries cur c = .lt) :
    apply_latest m c = indexInsert m c := by
  simp [apply_latest, hfind, hlt, Ordering.isGE]

theorem compare_lt_of_updated_lt {l r : MemoryEntry}
    (h : l.updated_at < r.updated_at) : compare_entries l r = .lt := by
  have h1 : cmpOf l.updated_at r.updated_at = .lt := cmpOf_eq_lt.mpr h
  simp only [compare_entries, h1]
  rfl

/-! ### Candidate field lemmas -/

theorem patchCandidate_fields (cur : MemoryEntry) (p : MemoryPatchData)
    (id : RStr) (now : Int) :
    (patchCandidate cur p id now).id = id ∧
    (patchCandidate cur p id now).kind = p.kind.getD cur.kind ∧
    (patchCandidate cur p id now).content = p.content.getD cur.content ∧
    (patchCandidate cur p id now).tags = p.tags.getD cur.tags ∧
    (patchCandidate cur p id now).created_at = cur.created_at ∧
    (patchCandidate cur p id now).updated_at =
      max (p.updated_at.getD now) (i64SatAdd1 cur.updated_at) ∧
    (patchCandidate cur p id now).deleted = p.deleted.getD cur.deleted := by
  rcases p with ⟨k, c, t, sid, sub, d, u⟩
  cases k <;> cases c <;> cases t <;> cases sid <;> cases sub <;> cases d <;>
    simp [patchCandidate]

theorem deleteCandidate_fields (cur : MemoryEntry) (dAt : Option Int) (now : Int) :
    (deleteCandidate cur dAt now).id = cur.id ∧
    (deleteCandidate cur dAt now).kind = cur.kind ∧
    (deleteCandidate cur dAt now).content = cur.content ∧
    (deleteCandidate cur dAt now).tags = cur.tags ∧
    (deleteCandidate cur dAt now).created_at = cur.created_at ∧
    (deleteCandidate cur dAt now).session_id = cur.session_id ∧
    (deleteCandidate cur dAt now).subagent_id = cur.subagent_id ∧
    (deleteCandidate cur dAt now).deleted = true ∧
    (deleteCandidate cur dAt now).updated_at =
      max (dAt.getD now) (i64SatAdd1 cur.updated_at) := by
  simp [deleteCandidate]

theorem i64SatAdd1_eq {x : Int} (h : x + 1 ≤ i64Max) : i64SatAdd1 x = x + 1 := by
  simp [i64SatAdd1, min_eq_left h]

/-! ### Claim C2 -/

/-- C2 counterexample: `put` performs no monotonic rewrite.  With entry
`"a"` at `updated_at = 10` in the index, putting a new version of `"a"`
with candidate `updated_at = 5 ≤ 10` appends that version to the log with
`updated_at` still `5` and returns the untouched predecessor
(`updated_at = 10`); nothing stored carries `updated_at = 11`. -/
theorem put_stale_no_rewrite_counterexample :
    (putOp (putOp initState
        ⟨rstr "a", rstr "k", rstr "c", [], 1, 10, none, none, false⟩ (rstr "g") 100).1
        ⟨rstr "a", rstr "k", rstr "c2", [], 1, 5, none, none, false⟩ (rstr "g") 100).1.log =
      [⟨rstr "a", rstr "k", rstr "c", [], 1, 10, none, none, false⟩,
        ⟨rstr "a", rstr "k", rstr "c2", [], 1, 5, none, none, false⟩] ∧
    (putOp (putOp initState
        ⟨rstr "a", rstr "k", rstr "c", [], 1, 10, none, none, false⟩ (rstr "g") 100).1
        ⟨rstr "a", rstr "k", rstr "c2", [], 1, 5, none, none, false⟩ (rstr "g") 100).2 =
      .ok (some ⟨rstr "a", rstr "k", rstr "c", [], 1, 10, none, none, false⟩) ∧
    (5 : Int) ≤ 10 ∧ (5 : Int) ≠ 10 + 1 ∧ (10 : Int) ≠ 10 + 1 := by
  refine ⟨?_, ?_, by decide, by decide, by decide⟩
  · rfl
  · rfl

/-- C2 amended: only `patch` and `delete` rewrite a stale candidate
`updated_at` to `predecessor.updated_at + 1` (provided the predecessor's
`updated_at` is below `i64::MAX`, since the bump uses `saturating_add`);
`put` appends a validated candidate to the log unchanged. -/
theorem monotonic_rewrite_patch_delete :
    (∀ (s : StoreState) (id : RStr) (p : MemoryPatch) (dat : MemoryPatchData)
        (now : Int) (cur : MemoryEntry),
      isBlank id = false →
      normalize_patch p = .ok dat →
      indexFind s.index id = some cur →
      dat.updated_at.getD now ≤ cur.updated_at →
      cur.updated_at + 1 ≤ i64Max →
      validate_entry (patchCandidate cur dat id now) = true →
      (patchCandidate cur dat id now).updated_at = cur.updated_at + 1 ∧
      (patchOp s id p now).1.log = s.log ++ [patchCandidate cur dat id now] ∧
      (patchOp s id p now).2 = .ok (some (patchCandidate cur dat id now))) ∧
    (∀ (s : StoreState) (id : RStr) (dAt : Option Int) (now : Int) (cur : MemoryEntry),
      isBlank id = false →
      indexFind s.index id = some cur →
      cur.id = id →
      dAt.getD now ≤ cur.updated_at →
      cur.updated_at + 1 ≤ i64Max →
      (deleteCandidate cur dAt now).updated_at = cur.updated_at + 1 ∧
      (deleteOp s id dAt now).1.log = s.log ++ [deleteCandidate cur dAt now] ∧
      (deleteOp s id dAt now).2 = .ok (some (deleteCandidate cur dAt now))) ∧
    (∀ (s : StoreState) (e : MemoryEntry) (g : RStr) (now : Int),
      validate_entry e = true →
      0 < e.created_at →
      0 < e.updated_at →
      isBlank e.id = false →
      (putOp s e g now).1.log = s.log ++ [e]) := by
  refine ⟨?_, ?_, ?_⟩
  · intro s id p dat now cur hblank hnorm hfind hle hrange hval
    have hupd : (patchCandidate cur dat id now).updated_at = cur.updated_at + 1 := by
      rw [(patchCandidate_fields cur dat id now).2.2.2.2.2.1, i64SatAdd1_eq hrange,
        max_eq_right (le_trans hle (by omega))]
    have hcid : (patchCandidate cur dat id now).id = id :=
      (patchCandidate_fields cur dat id now).1
    have hlt : compare_entries cur (patchCandidate cur dat id now) = .lt :=
      compare_lt_of_updated_lt (by rw [hupd]; omega)
    have hfind' : indexFind s.index (patchCandidate cur dat id now).id = some cur := by
      rw [hcid]; exact hfind
    have hop : patchOp s id p now =
        (commit s (patchCandidate cur dat id now),
          .ok (indexFind (commit s (patchCandidate cur dat id now)).index id)) := by
      simp [patchOp, hblank, hnorm, hfind, hval]
    refine ⟨hupd, ?_, ?_⟩
    · rw [hop]; rfl
    · rw [hop]
      have hwin : (commit s (patchCandidate cur dat id now)).index =
          indexInsert s.index (patchCandidate cur dat id now) := by
        simp only [commit]
        exact apply_latest_wins hfind' hlt
      simp only [hwin]
      have hself := indexFind_insert_self s.index (patchCandidate cur dat id now)
      rw [hcid] at hself
      rw [hself]
  · intro s id dAt now cur hblank hfind hcurid hle hrange
    have hupd : (deleteCandidate cur dAt now).updated_at = cur.updated_at + 1 := by
      rw [(deleteCandidate_fields cur dAt now).2.2.2.2.2.2.2.2, i64SatAdd1_eq hrange,
        max_eq_right (le_trans hle (by omega))]
    have hcid : (deleteCandidate cur dAt now).id = id := by
      rw [(deleteCandidate_fields cur dAt now).1, hcurid]
    have hlt : compare_entries cur (deleteCandidate cur dAt now) = .lt :=
      compare_lt_of_updated_lt (by rw [hupd]; omega)
    have hfind' : indexFind s.index (deleteCandidate cur dAt now).id = some cur := by
      rw [hcid]; exact hfind
    have hop : deleteOp s id dAt now =
        (commit s (deleteCandidate cur dAt now),
          .ok (indexFind (commit s (deleteCandidate cur dAt now)).index id)) := by
      simp [deleteOp, hblank, hfind]
    refine ⟨hupd, ?_, ?_⟩
    · rw [hop]; rfl
    · rw [hop]
      have hwin : (commit s (deleteCandidate cur dAt now)).index =
          indexInsert s.index (deleteCandidate cur dAt now) := by
        simp only [commit]
        exact apply_latest_wins hfind' hlt
      simp only [hwin]
      have hself := indexFind_insert_self s.index (deleteCandidate cur dAt now)
      rw [hcid] at hself
      rw [hself]
  · intro s e g now hval hc hu hblank
    have hcand : putCandidate e g now = e := by
      simp [putCandidate, hblank, not_le.mpr hc, not_le.mpr hu]
    simp [putOp, hcand, hval, commit]

/-- C2 amended witness: the rewrite (for patch and delete) and the
no-rewrite (for put) at concrete inputs. -/
theorem monotonic_rewrite_patch_delete_witness :
    (patchCandidate wEntry wPatchData (rstr "a") 100).updated_at = 10 + 1 ∧
    (patchOp wState (rstr "a") wPatch 100).2 =
      .ok (some (patchCandidate wEntry wPatchData (rstr "a") 100)) ∧
    (deleteCandidate wEntry (some 4) 100).updated_at = 10 + 1 ∧
    (deleteOp wState (rstr "a") (some 4) 100).2 =
      .ok (some (deleteCandidate wEntry (some 4) 100)) ∧
    (putOp wState ⟨rstr "b", rstr "k", rstr "c", [], 1, 7, none, none, false⟩
        (rstr "g") 100).1.log =
      wState.log ++ [⟨rstr "b", rstr "k", rstr "c", [], 1, 7, none, none, false⟩] := by
  have hp := monotonic_rewrite_patch_delete.1 wState (rstr "a") wPatch wPatchData 100 wEntry
    (by decide) rfl (by decide) (by decide) (by decide) (by decide)
  have hd := monotonic_rewrite_patch_delete.2.1 wState (rstr "a") (some 4) 100 wEntry
    (by decide) (by decide) (by decide) (by decide) (by decide)
  have hput := monotonic_rewrite_patch_delete.2.2 wState
    ⟨rstr "b", rstr "k", rstr "c", [], 1, 7, none, none, false⟩ (rstr "g") 100
    (by decide) (by decide) (by decide) (by decide)
  exact ⟨hp.1, hp.2.2, hd.1, hd.2.2, hput⟩

/-! ### Claim C4 -/

/-- C4.  Tombstone persistence: a successful `delete(id)` on an existing
entry appends a tombstone that retains the predecessor's value fields while
only `deleted` flips and `updated_at` advances; afterwards `get` is absent
while `get_latest` returns the tombstone; and a subsequent successful
`patch` whose normalised payload does not set `deleted = false` keeps the
entry tombstoned (`get` still absent) while applying the patched fields. -/
theorem tombstone_persistence :
    ∀ (s : StoreState) (id : RStr) (dAt : Option Int) (now : Int) (cur : MemoryEntry),
      isBlank id = false →
      indexFind s.index id = some cur →
      cur.id = id →
      cur.updated_at + 1 ≤ i64Max →
      (deleteOp s id dAt now).2 = .ok (some (deleteCandidate cur dAt now)) ∧
      deleteCandidate cur dAt now =
        { cur with
            deleted := true,
            updated_at := (deleteCandidate cur dAt now).updated_at } ∧
      cur.updated_at < (deleteCandidate cur dAt now).updated_at ∧
      getOp (deleteOp s id dAt now).1 id = none ∧
      getLatestOp (deleteOp s id dAt now).1 id = some (deleteCandidate cur dAt now) ∧
      (∀ (p : MemoryPatch) (dat : MemoryPatchData) (now2 : Int),
        normalize_patch p = .ok dat →
        dat.deleted ≠ some false →
        (deleteCandidate cur dAt now).updated_at + 1 ≤ i64Max →
        validate_entry (patchCandidate (deleteCandidate cur dAt now) dat id now2) = true →
        (patchCandidate (deleteCandidate cur dAt now) dat id now2).deleted = true ∧
        (patchOp (deleteOp s id dAt now).1 id p now2).2 =
          .ok (some (patchCandidate (deleteCandidate cur dAt now) dat id now2)) ∧
        getOp (patchOp (deleteOp s id dAt now).1 id p now2).1 id = none ∧
        (patchCandidate (deleteCandidate cur dAt now) dat id now2).kind =
          dat.kind.getD (deleteCandidate cur dAt now).kind ∧
        (patchCandidate (deleteCandidate cur dAt now) dat id now2).content =
          dat.content.getD (deleteCandidate cur dAt now).content ∧
        (patchCandidate (deleteCandidate cur dAt now) dat id now2).tags =
          dat.tags.getD (deleteCandidate cur dAt now).tags) := by
  intro s id dAt now cur hblank hfind hcurid hrange
  set tomb := deleteCandidate cur dAt now with htomb
  have hdf := deleteCandidate_fields cur dAt now
  have htu : tomb.updated_at = max (dAt.getD now) (cur.updated_at + 1) := by
    rw [← htomb] at hdf
    rw [hdf.2.2.2.2.2.2.2.2, i64SatAdd1_eq hrange]
  have hlt : cur.updated_at < tomb.updated_at := by
    rw [htu]
    exact lt_of_lt_of_le (by omega) (le_max_right _ _)
  have hcmp : compare_entries cur tomb = .lt := compare_lt_of_updated_lt hlt
  have hcid : tomb.id = id := by
    rw [← htomb] at hdf
    rw [hdf.1, hcurid]
  have hfind' : indexFind s.index tomb.id = some cur := by rw [hcid]; exact hfind
  have hop : deleteOp s id dAt now =
      (commit s tomb, .ok (indexFind (commit s tomb).index id)) := by
    simp [deleteOp, hblank, hfind, htomb]
  have hwin : (commit s tomb).index = indexInsert s.index tomb := by
    simp only [commit]
    exact apply_latest_wins hfind' hcmp
  have hself : indexFind (commit s tomb).index id = some tomb := by
    rw [hwin]
    have := indexFind_insert_self s.index tomb
    rw [hcid] at this
    exact this
  have hdel : tomb.deleted = true := by
    rw [← htomb] at hdf
    exact hdf.2.2.2.2.2.2.2.1
  refine ⟨?_, ?_, hlt, ?_, ?_, ?_⟩
  · rw [hop, hself]
  · rw [← htomb] at hdf
    rcases cur with ⟨i, k, c, t, ca, ua, sid, sub, d⟩
    rcases htf : tomb with ⟨ti, tk, tc, tt, tca, tua, tsid, tsub, td⟩
    rw [htf] at hdf
    simp only [MemoryEntry.mk.injEq] at hdf ⊢
    simp_all
  · rw [hop]
    simp only [getOp, hself]
    simp [hdel]
  · rw [hop]
    simp only [getLatestOp]
    exact hself
  · intro p dat now2 hnorm hdelNotFalse hrange2 hval
    set cand := patchCandidate tomb dat id now2 with hcand
    have hpf := patchCandidate_fields tomb dat id now2
    rw [← hcand] at hpf
    have hcdel : cand.deleted = true := by
      rw [hpf.2.2.2.2.2.2]
      cases hdd : dat.deleted with
      | none => simpa [hdd] using hdel
      | some b =>
        cases b with
        | false => exact absurd hdd hdelNotFalse
        | true => simp [hdd]
    have hcupd : tomb.updated_at < cand.updated_at := by
      rw [hpf.2.2.2.2.2.1, i64SatAdd1_eq hrange2]
      exact lt_of_lt_of_le (by omega) (le_max_right _ _)
    have hccmp : compare_entries tomb cand = .lt := compare_lt_of_updated_lt hcupd
    have hcandid : cand.id = id := hpf.1
    have hfind2 : indexFind (deleteOp s id dAt now).1.index cand.id = some tomb := by
      rw [hcandid, hop]
      exact hself
    have hfind2' : indexFind (deleteOp s id dAt now).1.index id = some tomb := by
      rw [← hcandid]; exact hfind2
    have hop2 : patchOp (deleteOp s id dAt now).1 id p now2 =
        (commit (deleteOp s id dAt now).1 cand,
          .ok (indexFind (commit (deleteOp s id dAt now).1 cand).index id)) := by
      simp [patchOp, hblank, hnorm, hfind2', hval, hcand]
    have hwin2 : (commit (deleteOp s id dAt now).1 cand).index =
        indexInsert (deleteOp s id dAt now).1.index cand := by
      simp only [commit]
      exact apply_latest_wins hfind2 hccmp
    have hself2 : indexFind (commit (deleteOp s id dAt now).1 cand).index id = some cand := by
      rw [hwin2]
      have := indexFind_insert_self (deleteOp s id dAt now).1.index cand
      rw [hcandid] at this
      exact this
    refine ⟨hcdel, ?_, ?_, hpf.2.1, hpf.2.2.1, hpf.2.2.2.1⟩
    · rw [hop2, hself2]
    · rw [hop2]
      simp only [getOp, hself2]
      simp [hcdel]

/-- C4 witness: delete then tombstone-preserving patch at concrete inputs. -/
theorem tombstone_persistence_witness :
    getOp (deleteOp wState (rstr "a") (some 4) 100).1 (rstr "a") = none ∧
    getLatestOp (deleteOp wState (rstr "a") (some 4) 100).1 (rstr "a") =
      some (deleteCandidate wEntry (some 4) 100) ∧
    (patchCandidate (deleteCandidate wEntry (some 4) 100) wPatchData (rstr "a") 200).deleted
      = true := by
  have h := tombstone_persistence wState (rstr "a") (some 4) 100 wEntry
    (by decide) (by decide) (by decide) (by decide)
  have h2 := h.2.2.2.2.2 wPatch wPatchData 200 rfl (by decide) (by decide) (by decide)
  exact ⟨h.2.2.2.1, h.2.2.2.2.1, h2.1⟩

/-! ### Sorting lemmas and claim C6 -/

theorem isLE_iff {o : Ordering} : o.isLE = true ↔ o = .lt ∨ o = .eq := by
  cases o <;> simp [Ordering.isLE]

theorem compare_isLE_trans {a b c : MemoryEntry}
    (h1 : (compare_entries a b).isLE = true)
    (h2 : (compare_entries b c).isLE = true) :
    (compare_entries a c).isLE = true := by
  rcases isLE_iff.mp h1 with hab | hab
  · rcases isLE_iff.mp h2 with hbc | hbc
    · exact isLE_iff.mpr (Or.inl (cmpLaws_entries.lt_trans hab hbc))
    · obtain rfl := (cmpLaws_entries.eq_iff b c).mp hbc
      exact isLE_iff.mpr (Or.inl hab)
  · obtain rfl := (cmpLaws_entries.eq_iff a b).mp hab
    exact h2
theorem compare_isLE_total (a b : MemoryEntry) :
    (compare_entries a b).isLE = true ∨ (compare_entries b a).isLE = true := by
  have hs := cmpLaws_entries.swap_eq a b
  cases hc : compare_entries a b
  · exact Or.inl (by simp [hc, Ordering.isLE])
  · exact Or.inl (by simp [hc, Ordering.isLE])
  · rw [hc] at hs
    exact Or.inr (by simp [← hs, Ordering.isLE, Ordering.swap])

theorem insertSorted_perm (e : MemoryEntry) (l : List MemoryEntry) :
    (insertSorted e l).Perm (e :: l) := by
  induction l with
  | nil => exact List.Perm.refl _
  | cons x xs ih =>
    simp only [insertSorted]
    split
    · exact List.Perm.refl _
    · exact (ih.cons x).trans (List.Perm.swap e x xs)

theorem sortEntries_perm (l : List MemoryEntry) : (sortEntries l).Perm l := by
  induction l with
  | nil => exact List.Perm.refl _
  | cons x xs ih => exact (insertSorted_perm x (sortEntries xs)).trans (ih.cons x)

theorem insertSorted_pairwise {e : MemoryEntry} {l : List MemoryEntry}
    (h : l.Pairwise (fun a b => (compare_entries a b).isLE = true)) :
    (insertSorted e l).Pairwise (fun a b => (compare_entries a b).isLE = true) := by
  induction l with
  | nil => simp [insertSorted]
  | cons x xs ih =>
    rcases List.pairwise_cons.mp h with ⟨hx, hxs⟩
    simp only [insertSorted]
    split
    · rename_i hle
      refine List.pairwise_cons.mpr ⟨?_, h⟩
      intro b hb
      rcases List.mem_cons.mp hb with rfl | hb'
      · exact hle
      · exact compare_isLE_trans hle (hx b hb')
    · rename_i hgt
      have hxe : (compare_entries x e).isLE = true := by
        rcases compare_isLE_total e x with hh | hh
        · exact absurd hh hgt
        · exact hh
      refine List.pairwise_cons.mpr ⟨?_, ih hxs⟩
      intro b hb
      have hb' := (insertSorted_perm e xs).mem_iff.mp hb
      rcases List.mem_cons.mp hb' with rfl | hb''
      · exact hxe
      · exact hx b hb''

theorem sortEntries_pairwise (l : List MemoryEntry) :
    (sortEntries l).Pairwise (fun a b => (compare_entries a b).isLE = true) := by
  induction l with
  | nil => simp [sortEntries]
  | cons x xs ih => exact insertSorted_pairwise ih

/-- C6.  List semantics: `list` returns exactly the non-deleted entries of
the index (a permutation of them), sorted ascending by the version
comparator, truncated to the last `limit` elements of the sorted sequence;
in particular `limit = 0` yields the empty list. -/
theorem list_semantics (s : StoreState) (limit : Nat) :
    (sortEntries ((s.index.map (fun kv => kv.2)).filter (fun e => !e.deleted))).Perm
      ((s.index.map (fun kv => kv.2)).filter (fun e => !e.deleted)) ∧
    (sortEntries ((s.index.map (fun kv => kv.2)).filter (fun e => !e.deleted))).Pairwise
      (fun a b => (compare_entries a b).isLE = true) ∧
    listOp s limit =
      (sortEntries ((s.index.map (fun kv => kv.2)).filter (fun e => !e.deleted))).drop
        ((sortEntries ((s.index.map (fun kv => kv.2)).filter (fun e => !e.deleted))).length
          - limit) ∧
    listOp s 0 = [] := by
  refine ⟨sortEntries_perm _, sortEntries_pairwise _, ?_, rfl⟩
  by_cases h0 : limit = 0
  · subst h0
    simp [listOp, List.drop_length]
  · simp only [listOp, if_neg h0]
    by_cases hlen :
      (sortEntries ((s.index.map (fun kv => kv.2)).filter (fun e => !e.deleted))).length
        > limit
    · rw [if_pos hlen]
    · rw [if_neg hlen, Nat.sub_eq_zero_of_le (le_of_not_lt hlen), List.drop_zero]

/-! ### Claim C3 -/

/-- C3 counterexample: even granting an identical hash value to both
components, the directory `Storage` uses for the memory log (the daemon
passes `config.data_dir` as its base) is not the directory `ProjectManager`
uses for the manifest: `<data>/<h>` has no `projects` component. -/
theorem project_dir_counterexample :
    storageProjectDir [rstr "engram"] (rstr "0123456789abcdef") ≠
      managerProjectStorageDir [rstr "engram"] (rstr "0123456789abcdef") := by
  decide

/-- C3 amended: the two components resolve different directories for every
project.  `Storage` (wired over `data_dir` by the daemon) keeps the memory
log at `<data_dir>/<h_storage>/experience.jsonl` where `h_storage` is the
16-hex SHA-256 prefix of the path string, while `ProjectManager` keeps the
manifest under `<data_dir>/projects/<h_manager>` where `h_manager` is the
16-hex rendering of Rust's 64-bit `DefaultHasher` over the canonical path;
whatever the two hash values are, the directories never coincide. -/
theorem project_storage_layout_split :
    (∀ (dataDir : List RStr) (hs hm : RStr),
      storageProjectDir dataDir hs ≠ managerProjectStorageDir dataDir hm) ∧
    (∀ (dataDir : List RStr) (hs : RStr),
      storageExperienceLogPath dataDir hs =
        dataDir ++ [hs, rstr "experience.jsonl"]) ∧
    (∀ (dataDir : List RStr) (hm : RStr),
      managerProjectStorageDir dataDir hm = dataDir ++ [rstr "projects", hm]) := by
  refine ⟨?_, ?_, fun _ _ => rfl⟩
  · intro dataDir hs hm hcon
    have hlen := congrArg List.length hcon
    simp [storageProjectDir, managerProjectStorageDir] at hlen
  · intro dataDir hs
    simp [storageExperienceLogPath, storageProjectDir]

/-- C3 amended witness: the layout split at a concrete data directory and
concrete hash values. -/
theorem project_storage_layout_split_witness :
    storageProjectDir [rstr "engram"] (rstr "aaaabbbbccccdddd") ≠
      managerProjectStorageDir [rstr "engram"] (rstr "1111222233334444") :=
  project_storage_layout_split.1 [rstr "engram"]
    (rstr "aaaabbbbccccdddd") (rstr "1111222233334444")

/-! ### Claim C7 -/

/-- C7 counterexample: a double-init (manifest already present, path
canonicalises fine) is answered with code `internal_error`, not
`invalid_request`. -/
theorem double_init_error_code_counterexample :
    handleInitProject true true true = .err .internalError ∧
    handleInitProject true true true ≠ .err .invalidRequest := by
  exact ⟨rfl, by decide⟩

/-- C7 amended: on an already-initialized project path, `init_project`
fails with `AlreadyInitialized`, and the handler surfaces that failure —
like every `init_project` failure — as an `Error` response with code
`internal_error`. -/
theorem double_init_surfaces_internal_error :
    ∀ createOk : Bool,
      init_project true true createOk = .error .alreadyInitialized ∧
      handleInitProject true true createOk = .err .internalError := by
  intro createOk
  exact ⟨rfl, rfl⟩

/-! ### Claim C9 -/

/-- C9.  Frame size limit: a frame whose little-endian length prefix
exceeds 1 MiB is rejected with `RequestTooLarge`, and the outcome does not
depend on the payload bytes (they are never read); a length of at most
1 MiB is never rejected on size grounds. -/
theorem frame_size_limit :
    ∀ (b0 b1 b2 b3 : Nat) (rest rest2 : List Nat),
      (leU32 b0 b1 b2 b3 > MAX_REQUEST_SIZE →
        read_request_frame (b0 :: b1 :: b2 :: b3 :: rest) = .error .requestTooLarge ∧
        read_request_frame (b0 :: b1 :: b2 :: b3 :: rest) =
          read_request_frame (b0 :: b1 :: b2 :: b3 :: rest2)) ∧
      (leU32 b0 b1 b2 b3 ≤ MAX_REQUEST_SIZE →
        read_request_frame (b0 :: b1 :: b2 :: b3 :: rest) ≠ .error .requestTooLarge) := by
  intro b0 b1 b2 b3 rest rest2
  constructor
  · intro h
    constructor
    · simp [read_request_frame, h]
    · simp [read_request_frame, h]
  · intro h
    simp only [read_request_frame]
    rw [if_neg (not_lt.mpr h)]
    split <;> simp

/-- C9 witness: a frame of 1 MiB + 1 byte is rejected, a frame of exactly
1 MiB is not rejected on size grounds. -/
theorem frame_size_limit_witness :
    read_request_frame (1 :: 0 :: 16 :: 0 :: []) = .error .requestTooLarge ∧
    read_request_frame (0 :: 0 :: 16 :: 0 :: []) ≠ .error .requestTooLarge :=
  ⟨((frame_size_limit 1 0 16 0 [] []).1 (by decide)).1,
    (frame_size_limit 0 0 16 0 [] []).2 (by decide)⟩

/-! ### Claim C8 -/

theorem filter_out_hit_length_lt {cache : List RStr} {k : RStr}
    (h : cache.any (fun x => x == k) = true) :
    (cache.filter (fun x => !(x == k))).length < cache.length := by
  induction cache with
  | nil => simp at h
  | cons hd tl ih =>
    by_cases hk : (hd == k) = true
    · have hle := List.length_filter_le (fun x => !(x == k)) tl
      simp only [List.filter_cons, hk, Bool.not_true, List.length_cons]
      simpa using Nat.lt_succ_of_le hle
    · have hk' : (hd == k) = false := by
        cases hb : (hd == k) with
        | false => rfl
        | true => exact absurd hb hk
      have h' : tl.any (fun x => x == k) = true := by simpa [hk'] using h
      simp only [List.filter_cons, hk', Bool.not_false, List.length_cons]
      simpa using Nat.succ_lt_succ (ih h')

theorem lruPromote_length_le {cache : List RStr} {k : RStr}
    (h : cache.any (fun x => x == k) = true) :
    (lruPromote cache k).length ≤ cache.length := by
  have := filter_out_hit_length_lt h
  simp only [lruPromote, List.length_cons]
  omega

theorem lruPut_length_le {cap : Nat} {cache : List RStr} (k : RStr)
    (hcap : 1 ≤ cap) (h : cache.length ≤ cap) :
    (lruPut cap cache k).length ≤ cap := by
  unfold lruPut
  split
  · exact le_trans (lruPromote_length_le ‹_›) h
  · split
    · rename_i hfull
      simp only [List.length_cons, List.length_dropLast]
      omega
    · rename_i hnotfull
      simp only [List.length_cons]
      omega

theorem pmStep_length_le {cap : Nat} {cache : List RStr} (hcap : 1 ≤ cap)
    (h : cache.length ≤ cap) (op : PmOp) :
    (pmStep cap cache op).length ≤ cap := by
  cases op with
  | getProject canonical loadOk =>
    cases canonical with
    | none => exact h
    | some k =>
      simp only [pmStep]
      split
      · exact le_trans (lruPromote_length_le ‹_›) h
      · split
        · exact lruPut_length_le k hcap h
        · exact h
  | initProject canonical manifestExists createOk =>
    cases canonical with
    | none => exact h
    | some k =>
      simp only [pmStep]
      split
      · exact h
      · split
        · exact lruPut_length_le k hcap h
        · exact h
  | evictLru =>
    simp only [pmStep, List.length_dropLast]
    omega
  | evictAllExcept keep =>
    exact le_trans (List.length_filter_le _ _) h

theorem pmFoldl_length_le {cap : Nat} (hcap : 1 ≤ cap) (ops : List PmOp) :
    ∀ cache : List RStr, cache.length ≤ cap →
      (ops.foldl (pmStep cap) cache).length ≤ cap := by
  induction ops with
  | nil => intro cache h; exact h
  | cons op rest ih =>
    intro cache h
    exact ih (pmStep cap cache op) (pmStep_length_le hcap h op)

theorem lruCapacity_pos (maxProjects : Nat) : 1 ≤ lruCapacity maxProjects := by
  unfold lruCapacity
  split <;> omega

/-- C8 counterexample: with `max_projects = 0`, the constructor clamps the
cache capacity to 1 (`NonZeroUsize::MIN`), so one successful `init_project`
leaves `loaded_count = 1 > 0 = max_projects`. -/
theorem lru_bound_counterexample :
    loaded_count (pmRun 0 [.initProject (some (rstr "p")) false true]) = 1 ∧
    ¬ loaded_count (pmRun 0 [.initProject (some (rstr "p")) false true]) ≤ 0 := by
  exact ⟨rfl, by decide⟩

/-- C8 amended: `loaded_count` never exceeds the clamped capacity
`max(max_projects, 1)`; in particular for every configured
`max_projects ≥ 1` it never exceeds `max_projects`. -/
theorem lru_bound :
    ∀ (maxProjects : Nat) (ops : List PmOp),
      loaded_count (pmRun maxProjects ops) ≤ lruCapacity maxProjects ∧
      (1 ≤ maxProjects → loaded_count (pmRun maxProjects ops) ≤ maxProjects) := by
  intro maxProjects ops
  have hbound :=
    pmFoldl_length_le (lruCapacity_pos maxProjects) ops [] (by simp)
  refine ⟨hbound, fun hpos => ?_⟩
  have hcap : lruCapacity maxProjects = maxProjects := by
    unfold lruCapacity
    split
    · omega
    · rfl
  exact le_trans hbound (le_of_eq hcap)

/-- C8 amended witness: the bound applied with `max_projects = 2` and a
concrete operation sequence that initialises three projects. -/
theorem lru_bound_witness :
    loaded_count (pmRun 2
      [.initProject (some (rstr "p1")) false true,
        .initProject (some (rstr "p2")) false true,
        .initProject (some (rstr "p3")) false true]) ≤ 2 :=
  (lru_bound 2
    [.initProject (some (rstr "p1")) false true,
      .initProject (some (rstr "p2")) false true,
      .initProject (some (rstr "p3")) false true]).2 (by decide)

/-! ### Patch normalisation lemmas and claim C10 -/

theorem find?_cons_pos {α : Type} (p : α → Bool) (a : α) (l : List α)
    (h : p a = true) : (a :: l).find? p = some a := by
  simp [List.find?, h]

theorem find?_cons_neg {α : Type} (p : α → Bool) (a : α) (l : List α)
    (h : p a = false) : (a :: l).find? p = l.find? p := by
  simp [List.find?, h]

theorem objGet_append (xs ys : List (RStr × Json)) (k : RStr) :
    objGet (xs ++ ys) k =
      match objGet xs k with
      | some v => some v
      | none => objGet ys k := by
  induction xs with
  | nil => simp [objGet]
  | cons hd tl ih =>
    by_cases hk : (hd.1 == k) = true
    · simp only [List.cons_append, objGet]
      rw [find?_cons_pos (fun kv => kv.1 == k) hd (tl ++ ys) hk,
        find?_cons_pos (fun kv => kv.1 == k) hd tl hk]
      rfl
    · have hk' : (hd.1 == k) = false := by
        cases hb : (hd.1 == k) with
        | false => rfl
        | true => exact absurd hb hk
      simp only [List.cons_append, objGet]
      rw [find?_cons_neg (fun kv => kv.1 == k) hd (tl ++ ys) hk',
        find?_cons_neg (fun kv => kv.1 == k) hd tl hk']
      exact ih

theorem objGet_optField_self (k : RStr) (v : Option Json) :
    objGet (optField k v) k = v := by
  cases v with
  | none => rfl
  | some j =>
    simp only [optField, objGet]
    rw [find?_cons_pos (fun kv => kv.1 == k) (k, j) [] (by simp)]
    rfl

theorem objGet_optField_ne {k key : RStr} (v : Option Json) (h : (k == key) = false) :
    objGet (optField k v) key = none := by
  cases v with
  | none => rfl
  | some j =>
    simp only [optField, objGet]
    rw [find?_cons_neg (fun kv => kv.1 == key) (k, j) [] (by simpa using h)]
    rfl

theorem objGet_toJson_kind (p : MemoryPatch) :
    objGet p.toJsonObject (rstr "kind") = p.kind.map Json.str := by
  cases hv : p.kind <;>
    simp [MemoryPatch.toJsonObject, List.append_assoc, objGet_append,
      objGet_optField_self, hv,
      objGet_optField_ne _ (by decide : (rstr "content" == rstr "kind") = false),
      objGet_optField_ne _ (by decide : (rstr "tags" == rstr "kind") = false),
      objGet_optField_ne _ (by decide : (rstr "session_id" == rstr "kind") = false),
      objGet_optField_ne _ (by decide : (rstr "subagent_id" == rstr "kind") = false),
      objGet_optField_ne _ (by decide : (rstr "deleted" == rstr "kind") = false),
      objGet_optField_ne _ (by decide : (rstr "updated_at" == rstr "kind") = false)]

theorem objGet_toJson_content (p : MemoryPatch) :
    objGet p.toJsonObject (rstr "content") = p.content.map Json.str := by
  cases hv : p.content <;>
    simp [MemoryPatch.toJsonObject, List.append_assoc, objGet_append,
      objGet_optField_self, hv,
      objGet_optField_ne _ (by decide : (rstr "kind" == rstr "content") = false),
      objGet_optField_ne _ (by decide : (rstr "tags" == rstr "content") = false),
      objGet_optField_ne _ (by decide : (rstr "session_id" == rstr "content") = false),
      objGet_optField_ne _ (by decide : (rstr "subagent_id" == rstr "content") = false),
      objGet_optField_ne _ (by decide : (rstr "deleted" == rstr "content") = false),
      objGet_optField_ne _ (by decide : (rstr "updated_at" == rstr "content") = false)]

theorem objGet_toJson_tags (p : MemoryPatch) :
    objGet p.toJsonObject (rstr "tags") =
      p.tags.map (fun ts => Json.arr (ts.map Json.str)) := by
  cases hv : p.tags <;>
    simp [MemoryPatch.toJsonObject, List.append_assoc, objGet_append,
      objGet_optField_self, hv,
      objGet_optField_ne _ (by decide : (rstr "kind" == rstr "tags") = false),
      objGet_optField_ne _ (by decide : (rstr "content" == rstr "tags") = false),
      objGet_optField_ne _ (by decide : (rstr "session_id" == rstr "tags") = false),
      objGet_optField_ne _ (by decide : (rstr "subagent_id" == rstr "tags") = false),
      objGet_optField_ne _ (by decide : (rstr "deleted" == rstr "tags") = false),
      objGet_optField_ne _ (by decide : (rstr "updated_at" == rstr "tags") = false)]

theorem objGet_toJson_session (p : MemoryPatch) :
    objGet p.toJsonObject (rstr "session_id") = p.session_id.map Json.str := by
  cases hv : p.session_id <;>
    simp [MemoryPatch.toJsonObject, List.append_assoc, objGet_append,
      objGet_optField_self, hv,
      objGet_optField_ne _ (by decide : (rstr "kind" == rstr "session_id") = false),
      objGet_optField_ne _ (by decide : (rstr "content" == rstr "session_id") = false),
      objGet_optField_ne _ (by decide : (rstr "tags" == rstr "session_id") = false),
      objGet_optField_ne _ (by decide : (rstr "subagent_id" == rstr "session_id") = false),
      objGet_optField_ne _ (by decide : (rstr "deleted" == rstr "session_id") = false),
      objGet_optField_ne _ (by decide : (rstr "updated_at" == rstr "session_id") = false)]

theorem objGet_toJson_subagent (p : MemoryPatch) :
    objGet p.toJsonObject (rstr "subagent_id") = p.subagent_id.map Json.str := by
  cases hv : p.subagent_id <;>
    simp [MemoryPatch.toJsonObject, List.append_assoc, objGet_append,
      objGet_optField_self, hv,
      objGet_optField_ne _ (by decide : (rstr "kind" == rstr "subagent_id") = false),
      objGet_optField_ne _ (by decide : (rstr "content" == rstr "subagent_id") = false),
      objGet_optField_ne _ (by decide : (rstr "tags" == rstr "subagent_id") = false),
      objGet_optField_ne _ (by decide : (rstr "session_id" == rstr "subagent_id") = false),
      objGet_optField_ne _ (by decide : (rstr "deleted" == rstr "subagent_id") = false),
      objGet_optField_ne _ (by decide : (rstr "updated_at" == rstr "subagent_id") = false)]

theorem objGet_toJson_deleted (p : MemoryPatch) :
    objGet p.toJsonObject (rstr "deleted") = p.deleted.map Json.bool := by
  cases hv : p.deleted <;>
    simp [MemoryPatch.toJsonObject, List.append_assoc, objGet_append,
      objGet_optField_self, hv,
      objGet_optField_ne _ (by decide : (rstr "kind" == rstr "deleted") = false),
      objGet_optField_ne _ (by decide : (rstr "content" == rstr "deleted") = false),
      objGet_optField_ne _ (by decide : (rstr "tags" == rstr "deleted") = false),
      objGet_optField_ne _ (by decide : (rstr "session_id" == rstr "deleted") = false),
      objGet_optField_ne _ (by decide : (rstr "subagent_id" == rstr "deleted") = false),
      objGet_optField_ne _ (by decide : (rstr "updated_at" == rstr "deleted") = false)]

theorem objGet_toJson_updated (p : MemoryPatch) :
    objGet p.toJsonObject (rstr "updated_at") = p.updated_at.map Json.num := by
  cases hv : p.updated_at <;>
    simp [MemoryPatch.toJsonObject, List.append_assoc, objGet_append,
      objGet_optField_self, hv,
      objGet_optField_ne _ (by decide : (rstr "kind" == rstr "updated_at") = false),
      objGet_optField_ne _ (by decide : (rstr "content" == rstr "updated_at") = false),
      objGet_optField_ne _ (by decide : (rstr "tags" == rstr "updated_at") = false),
      objGet_optField_ne _ (by decide : (rstr "session_id" == rstr "updated_at") = false),
      objGet_optField_ne _ (by decide : (rstr "subagent_id" == rstr "updated_at") = false),
      objGet_optField_ne _ (by decide : (rstr "deleted" == rstr "updated_at") = false)]

theorem decodeStringItems_map_str (ts : List RStr) :
    decodeStringItems (ts.map Json.str) = Except.ok ts := by
  induction ts with
  | nil => rfl
  | cons t rest ih =>
    simp [decodeStringItems, ih, Json.asString]

theorem readField_toJson_kind (p : MemoryPatch) :
    readField Json.asString p.toJsonObject (rstr "kind") = .ok p.kind := by
  rw [readField, objGet_toJson_kind]
  cases p.kind <;> simp [Json.asString, Except.map]

theorem readField_toJson_content (p : MemoryPatch) :
    readField Json.asString p.toJsonObject (rstr "content") = .ok p.content := by
  rw [readField, objGet_toJson_content]
  cases p.content <;> simp [Json.asString, Except.map]

theorem readField_toJson_tags (p : MemoryPatch) :
    readField Json.asStringList p.toJsonObject (rstr "tags") = .ok p.tags := by
  rw [readField, objGet_toJson_tags]
  cases p.tags <;> simp [Json.asStringList, decodeStringItems_map_str, Except.map]

theorem readNullable_toJson_session (p : MemoryPatch) :
    readNullableField p.toJsonObject (rstr "session_id") =
      .ok (toNullable p.session_id) := by
  rw [readNullableField, objGet_toJson_session]
  cases p.session_id <;> simp [toNullable, Json.asString, Except.map]

theorem readNullable_toJson_subagent (p : MemoryPatch) :
    readNullableField p.toJsonObject (rstr "subagent_id") =
      .ok (toNullable p.subagent_id) := by
  rw [readNullableField, objGet_toJson_subagent]
  cases p.subagent_id <;> simp [toNullable, Json.asString, Except.map]

theorem readField_toJson_deleted (p : MemoryPatch) :
    readField Json.asBool p.toJsonObject (rstr "deleted") = .ok p.deleted := by
  rw [readField, objGet_toJson_deleted]
  cases p.deleted <;> simp [Json.asBool, Except.map]

theorem readField_toJson_updated (p : MemoryPatch) :
    readField Json.asInt p.toJsonObject (rstr "updated_at") = .ok p.updated_at := by
  rw [readField, objGet_toJson_updated]
  cases p.updated_at <;> simp [Json.asInt, Except.map]

/-- The data produced by a successful normalisation of the public IPC
patch type. -/
theorem normalize_patch_ok {p : MemoryPatch} {dat : MemoryPatchData}
    (h : normalize_patch p = .ok dat) :
    dat = ⟨p.kind, p.content, p.tags, toNullable p.session_id,
      toNullable p.subagent_id, p.deleted, p.updated_at⟩ := by
  unfold normalize_patch normalizeObject at h
  rw [readField_toJson_kind, readField_toJson_content, readField_toJson_tags,
    readNullable_toJson_session, readNullable_toJson_subagent,
    readField_toJson_deleted, readField_toJson_updated] at h
  simp only [Bind.bind, Except.bind] at h
  split at h
  · exact absurd h (by simp)
  · split at h
    · exact absurd h (by simp)
    · split at h
      · exact absurd h (by simp)
      · simp only [Except.ok.injEq] at h
        exact h.symm

theorem patchCandidate_nullable (cur : MemoryEntry) (p : MemoryPatchData)
    (id : RStr) (now : Int) :
    ((patchCandidate cur p id now).session_id =
      match p.session_id with
      | .Missing => cur.session_id
      | .Null => none
      | .Value v => some v) ∧
    ((patchCandidate cur p id now).subagent_id =
      match p.subagent_id with
      | .Missing => cur.subagent_id
      | .Null => none
      | .Value v => some v) := by
  rcases p with ⟨k, c, t, sid, sub, d, u⟩
  cases k <;> cases c <;> cases t <;> cases sid <;> cases sub <;> cases d <;>
    simp [patchCandidate]

/-- C10.  Because every field of the public IPC `MemoryPatch` is skipped
when `None` during serialisation, normalising such a patch can never
produce the explicit-null branch for `session_id` or `subagent_id`; hence
the entry a `patch` builds either keeps the current value of those fields
or replaces it with the patch's string, and never clears it. -/
theorem ipc_patch_cannot_clear_nullable :
    ∀ (p : MemoryPatch) (dat : MemoryPatchData),
      normalize_patch p = .ok dat →
      dat.session_id ≠ .Null ∧
      dat.subagent_id ≠ .Null ∧
      (∀ (cur : MemoryEntry) (id : RStr) (now : Int),
        (patchCandidate cur dat id now).session_id = cur.session_id ∨
        (∃ v, p.session_id = some v ∧
          (patchCandidate cur dat id now).session_id = some v)) ∧
      (∀ (cur : MemoryEntry) (id : RStr) (now : Int),
        (patchCandidate cur dat id now).subagent_id = cur.subagent_id ∨
        (∃ v, p.subagent_id = some v ∧
          (patchCandidate cur dat id now).subagent_id = some v)) := by
  intro p dat h
  have hdat := normalize_patch_ok h
  subst hdat
  refine ⟨?_, ?_, ?_, ?_⟩
  · cases hs : p.session_id <;> simp [toNullable, hs]
  · cases hs : p.subagent_id <;> simp [toNullable, hs]
  · intro cur id now
    have hn := (patchCandidate_nullable cur
      ⟨p.kind, p.content, p.tags, toNullable p.session_id,
        toNullable p.subagent_id, p.deleted, p.updated_at⟩ id now).1
    cases hs : p.session_id with
    | none =>
      left
      rw [hs] at hn
      simpa [toNullable] using hn
    | some v =>
      right
      refine ⟨v, rfl, ?_⟩
      rw [hs] at hn
      simpa [toNullable] using hn
  · intro cur id now
    have hn := (patchCandidate_nullable cur
      ⟨p.kind, p.content, p.tags, toNullable p.session_id,
        toNullable p.subagent_id, p.deleted, p.updated_at⟩ id now).2
    cases hs : p.subagent_id with
    | none =>
      left
      rw [hs] at hn
      simpa [toNullable] using hn
    | some v =>
      right
      refine ⟨v, rfl, ?_⟩
      rw [hs] at hn
      simpa [toNullable] using hn

/-- C10 witness: the normalisation of the concrete patch `wPatch` leaves
both nullable fields away from the explicit-null branch. -/
theorem ipc_patch_cannot_clear_nullable_witness :
    wPatchData.session_id ≠ NullableStringPatch.Null ∧
    wPatchData.subagent_id ≠ NullableStringPatch.Null :=
  ⟨(ipc_patch_cannot_clear_nullable wPatch wPatchData rfl).1,
    (ipc_patch_cannot_clear_nullable wPatch wPatchData rfl).2.1⟩

end Engram

